import Mathlib

/-!
Verification of the refly RAG (retrieval-augmented generation) service:
content ingestion, tenant-isolated retrieval, archival codec, remote-fetch
cache and chunking, shallowly embedded from `RAGService` (rag.service).

Strings of document text are modelled as `List Char`; identifiers stay
`String`. Payloads (JSON objects) are association lists with unique keys
maintained by `pset`. The durable vector store (`QdrantService`) and the
ephemeral vector store (`MemoryVectorStore`) are capability interfaces whose
implementations are not part of this repository; they are modelled from the
spec (filtered search ranked by a score, upsert by point id, filtered
delete).
-/

/-- Scalar payload values: strings (ids, node types, chunk content) and
natural numbers (sequence numbers, character offsets). -/
inductive PValue where
  | s (v : String)
  | n (v : Nat)
deriving DecidableEq

/-- A point payload or document metadata object: an association list from
keys to scalar values, later writes keeping keys unique via `pset`. -/
abbrev Payload := List (String × PValue)

/-- Look up a key in a payload (first binding wins; `pset` keeps keys unique). -/
def plookup (p : Payload) (k : String) : Option PValue :=
  (p.find? (fun kv => kv.1 == k)).map (·.2)

/-- Object update, modelling a JavaScript spread `{ ...p, k: v }`: any prior
binding of `k` is removed and the new one appended. -/
def pset (p : Payload) (k : String) (v : PValue) : Payload :=
  p.filter (fun kv => kv.1 != k) ++ [(k, v)]

/-- Match clause of a Qdrant condition: exact value or any-of a list. -/
inductive MatchCond where
  | value (v : PValue)
  | any (vs : List PValue)
deriving DecidableEq

/-- A Qdrant filter condition on one payload key (source field `match` is a
Lean keyword, rendered here as `mtch`). -/
structure Condition where
  key : String
  mtch : MatchCond
deriving DecidableEq

/-- Whether a payload satisfies one condition: the key must be present and
its value equal to (resp. among) the condition's value(s). -/
def condMatches (p : Payload) (c : Condition) : Bool :=
  match plookup p c.key, c.mtch with
  | some v, .value w => v == w
  | some v, .any ws => ws.contains v
  | none, _ => false

/-- Whether a payload satisfies a conjunctive (`must`) filter. -/
def filterMatches (must : List Condition) (p : Payload) : Bool :=
  must.all (condMatches p)

/-- A stored vector point (Qdrant `PointStruct`). -/
structure PointStruct where
  id : String
  vector : List Int
  payload : Payload
deriving DecidableEq

/-- Insert into a similarity-descending ranking (used to model the store's
"ranked by similarity descending" search result order). -/
def insertRanked (score : PointStruct → Int) (x : PointStruct) :
    List PointStruct → List PointStruct
  | [] => [x]
  | y :: ys =>
    if score y ≤ score x then x :: y :: ys else y :: insertRanked score x ys

/-- Rank a list of points by descending score. -/
def rankDesc (score : PointStruct → Int) : List PointStruct → List PointStruct
  | [] => []
  | x :: xs => insertRanked score x (rankDesc score xs)

/-- Modelled from the spec: `QdrantService.search` (Durable Vector Store
capability interface, not in src): return the points matching the conjunctive
filter, ranked by similarity descending, truncated to the requested limit. -/
def qdrantSearch (points : List PointStruct) (must : List Condition)
    (score : PointStruct → Int) (limit : Nat) : List PointStruct :=
  (rankDesc score (points.filter (fun pt => filterMatches must pt.payload))).take limit

/-- Modelled from the spec: `QdrantService.batchDelete` (not in src): delete
every point matching the conjunctive filter. -/
def qdrantDelete (points : List PointStruct) (must : List Condition) :
    List PointStruct :=
  points.filter (fun pt => !(filterMatches must pt.payload))

/-- Modelled from the spec: upsert of one point by id (not in src): an
existing point with the same id is replaced, otherwise the point is appended. -/
def upsertPoint (points : List PointStruct) (p : PointStruct) : List PointStruct :=
  if points.any (fun q => q.id == p.id) then
    points.map (fun q => if q.id == p.id then p else q)
  else points ++ [p]

/-- Modelled from the spec: `QdrantService.batchSaveData` (not in src):
upsert each point in order. -/
def batchSaveData (points : List PointStruct) (newPoints : List PointStruct) :
    List PointStruct :=
  newPoints.foldl upsertPoint points

/-- The requesting user (only the uid is read by `RAGService`). -/
structure User where
  uid : String

/-- The optional facet lists of `HybridSearchParam.filter`. -/
structure SearchFilter where
  nodeTypes : List String
  urls : List String
  noteIds : List String
  resourceIds : List String
  collectionIds : List String

/-- Hybrid search request: query text, optional precomputed vector, optional
facet filter, and the result limit passed through to the store. -/
structure HybridSearchParam where
  query : String
  vector : Option (List Int)
  filter : Option SearchFilter
  limit : Nat

/-- The tenant-equality condition the orchestrator always adds. -/
def tenantCondition (uid : String) : Condition :=
  ⟨"tenantId", .value (.s uid)⟩

/-- Read a facet list through the optional filter (TS `param.filter?.xs`,
`undefined` collapsing to the empty list). -/
def facet (f : Option SearchFilter) (g : SearchFilter → List String) : List String :=
  match f with
  | some ff => g ff
  | none => []

/-- One conditional `conditions.push` of `RAGService.retrieve`: append an
any-of condition for a facet exactly when the facet list is non-empty. -/
def pushFacet (cs : List Condition) (key : String) (vals : List String) :
    List Condition :=
  if 0 < vals.length then cs ++ [⟨key, .any (vals.map PValue.s)⟩] else cs

/-- The filter conditions built by `RAGService.retrieve`: tenant equality
first, then one conditional push per facet, in source order. -/
def retrieveConditions (uid : String) (f : Option SearchFilter) : List Condition :=
  let cs := [tenantCondition uid]
  let cs := pushFacet cs "nodeType" (facet f (fun ff => ff.nodeTypes))
  let cs := pushFacet cs "url" (facet f (fun ff => ff.urls))
  let cs := pushFacet cs "noteId" (facet f (fun ff => ff.noteIds))
  let cs := pushFacet cs "resourceId" (facet f (fun ff => ff.resourceIds))
  let cs := pushFacet cs "collectionId" (facet f (fun ff => ff.collectionIds))
  cs

/-- `RAGService.retrieve`: embed the query when no vector was supplied, search
the durable store with the tenant-first conjunction, and return the matched
points' payloads. The embedding provider and the similarity score are
capability parameters. -/
def retrieve (embedQuery : String → List Int) (score : List Int → PointStruct → Int)
    (points : List PointStruct) (user : User) (param : HybridSearchParam) :
    List Payload :=
  let vec := match param.vector with
    | some v => v
    | none => embedQuery param.query
  let results := qdrantSearch points (retrieveConditions user.uid param.filter)
    (score vec) param.limit
  results.map (·.payload)

/-- `RAGService.deleteResourceNodes`: delete with the conjunction of tenant
equality and `resourceId` equality. -/
def deleteResourceNodes (points : List PointStruct) (user : User)
    (resourceId : String) : List PointStruct :=
  qdrantDelete points
    [⟨"tenantId", .value (.s user.uid)⟩, ⟨"resourceId", .value (.s resourceId)⟩]

/-- `RAGService.deleteNoteNodes`: delete with the conjunction of tenant
equality and `noteId` equality. -/
def deleteNoteNodes (points : List PointStruct) (user : User)
    (noteId : String) : List PointStruct :=
  qdrantDelete points
    [⟨"tenantId", .value (.s user.uid)⟩, ⟨"noteId", .value (.s noteId)⟩]

/-- An ephemeral-index document (langchain `Document`): page content plus
metadata object. -/
structure MemDoc where
  pageContent : List Char
  metadata : Payload
deriving DecidableEq

/-- Insert into a similarity-descending ranking of ephemeral documents. -/
def insertRankedDoc (score : MemDoc → Int) (x : MemDoc) :
    List MemDoc → List MemDoc
  | [] => [x]
  | y :: ys =>
    if score y ≤ score x then x :: y :: ys else y :: insertRankedDoc score x ys

/-- Rank ephemeral documents by descending score. -/
def rankDescDoc (score : MemDoc → Int) : List MemDoc → List MemDoc
  | [] => []
  | x :: xs => insertRankedDoc score x (rankDescDoc score xs)

/-- Modelled from the spec: `MemoryVectorStore.similaritySearch` (not in
src): the stored documents satisfying the predicate, ranked by similarity
descending, truncated to `k`. -/
def similaritySearch (docs : List MemDoc) (score : MemDoc → Int) (k : Nat)
    (pred : MemDoc → Bool) : List MemDoc :=
  (rankDescDoc score (docs.filter pred)).take k

/-- `RAGService.inMemorySearch`: wrap the caller's predicate with a tenant
check and search the ephemeral index. The query's similarity score is a
capability parameter. -/
def inMemorySearch (memStore : List MemDoc) (score : MemDoc → Int) (user : User)
    (k : Nat) (filter : MemDoc → Bool) : List MemDoc :=
  let wrapperFilter := fun d =>
    filter d && (plookup d.metadata "tenantId" == some (.s user.uid))
  similaritySearch memStore score k wrapperFilter

theorem mem_insertRanked {score : PointStruct → Int} {x a : PointStruct}
    {l : List PointStruct} (h : a ∈ insertRanked score x l) : a = x ∨ a ∈ l := by
  induction l with
  | nil => simpa [insertRanked] using h
  | cons y ys ih =>
    by_cases hc : score y ≤ score x
    · simp only [insertRanked, if_pos hc, List.mem_cons] at h
      rcases h with h | h | h
      · exact Or.inl h
      · exact Or.inr (by simp [h])
      · exact Or.inr (by simp [h])
    · simp only [insertRanked, if_neg hc, List.mem_cons] at h
      rcases h with h | h
      · exact Or.inr (by simp [h])
      · rcases ih h with h' | h'
        · exact Or.inl h'
        · exact Or.inr (by simp [h'])

theorem mem_rankDesc {score : PointStruct → Int} {a : PointStruct}
    {l : List PointStruct} (h : a ∈ rankDesc score l) : a ∈ l := by
  induction l with
  | nil => simp [rankDesc] at h
  | cons x xs ih =>
    rcases mem_insertRanked (l := rankDesc score xs) (by simpa [rankDesc] using h) with
      h' | h'
    · simp [h']
    · simp [ih h']

theorem mem_insertRankedDoc {score : MemDoc → Int} {x a : MemDoc}
    {l : List MemDoc} (h : a ∈ insertRankedDoc score x l) : a = x ∨ a ∈ l := by
  induction l with
  | nil => simpa [insertRankedDoc] using h
  | cons y ys ih =>
    by_cases hc : score y ≤ score x
    · simp only [insertRankedDoc, if_pos hc, List.mem_cons] at h
      rcases h with h | h | h
      · exact Or.inl h
      · exact Or.inr (by simp [h])
      · exact Or.inr (by simp [h])
    · simp only [insertRankedDoc, if_neg hc, List.mem_cons] at h
      rcases h with h | h
      · exact Or.inr (by simp [h])
      · rcases ih h with h' | h'
        · exact Or.inl h'
        · exact Or.inr (by simp [h'])

theorem mem_rankDescDoc {score : MemDoc → Int} {a : MemDoc}
    {l : List MemDoc} (h : a ∈ rankDescDoc score l) : a ∈ l := by
  induction l with
  | nil => simp [rankDescDoc] at h
  | cons x xs ih =>
    rcases mem_insertRankedDoc (l := rankDescDoc score xs)
      (by simpa [rankDescDoc] using h) with h' | h'
    · simp [h']
    · simp [ih h']

/-- The tenant condition is always among the retrieve conditions. -/
theorem tenantCondition_mem_retrieveConditions (uid : String)
    (f : Option SearchFilter) :
    tenantCondition uid ∈ retrieveConditions uid f := by
  have push : ∀ (cs : List Condition) (k : String) (vs : List String),
      tenantCondition uid ∈ cs → tenantCondition uid ∈ pushFacet cs k vs := by
    intro cs k vs h
    unfold pushFacet
    split
    · exact List.mem_append_left _ h
    · exact h
  unfold retrieveConditions
  exact push _ _ _ (push _ _ _ (push _ _ _ (push _ _ _ (push _ _ _ (by simp)))))

/-- A payload satisfying the tenant condition has exactly the user's uid as
its tenantId. -/
theorem condMatches_tenant {p : Payload} {uid : String}
    (h : condMatches p (tenantCondition uid) = true) :
    plookup p "tenantId" = some (.s uid) := by
  unfold condMatches tenantCondition at h
  cases hl : plookup p "tenantId" with
  | none => rw [hl] at h; simp at h
  | some v =>
    rw [hl] at h
    simp only [beq_iff_eq] at h
    rw [h]

/-- An equality condition holds exactly when the key is bound to the value. -/
theorem condMatches_value_iff (p : Payload) (k : String) (v : PValue) :
    condMatches p ⟨k, .value v⟩ = true ↔ plookup p k = some v := by
  unfold condMatches
  cases h : plookup p k with
  | none => simp
  | some w => simp [beq_iff_eq]

/-- C1: tenant isolation. Every payload returned by `retrieve` and every
document returned by `inMemorySearch` carries exactly the querying user's
uid as its tenantId, whatever facet filter or predicate the caller supplies:
the orchestrator always conjoins the tenant-equality condition (key
`tenantId`, value `user.uid`) to the caller's filter. -/
theorem tenant_isolation
    (embedQuery : String → List Int) (score : List Int → PointStruct → Int)
    (points : List PointStruct) (user : User) (param : HybridSearchParam)
    (memStore : List MemDoc) (mscore : MemDoc → Int) (k : Nat)
    (filter : MemDoc → Bool) :
    (∀ pl ∈ retrieve embedQuery score points user param,
      plookup pl "tenantId" = some (.s user.uid)) ∧
    (∀ d ∈ inMemorySearch memStore mscore user k filter,
      plookup d.metadata "tenantId" = some (.s user.uid)) := by
  constructor
  · intro pl hpl
    unfold retrieve at hpl
    simp only [List.mem_map] at hpl
    obtain ⟨pt, hpt, rfl⟩ := hpl
    unfold qdrantSearch at hpt
    have hpt' := mem_rankDesc (List.mem_of_mem_take hpt)
    rw [List.mem_filter] at hpt'
    have hmatch := hpt'.2
    unfold filterMatches at hmatch
    rw [List.all_eq_true] at hmatch
    exact condMatches_tenant (hmatch _ (tenantCondition_mem_retrieveConditions _ _))
  · intro d hd
    unfold inMemorySearch similaritySearch at hd
    have hd' := mem_rankDescDoc (List.mem_of_mem_take hd)
    rw [List.mem_filter] at hd'
    have hw := hd'.2
    simp only [Bool.and_eq_true, beq_iff_eq] at hw
    exact hw.2

theorem tenant_isolation_witness :
    ([("tenantId", PValue.s "u1")] ∈
      retrieve (fun _ => []) (fun _ _ => 0)
        [⟨"p1", [], [("tenantId", PValue.s "u1")]⟩] ⟨"u1"⟩
        ⟨"q", none, none, 10⟩) ∧
    (⟨[], [("tenantId", PValue.s "u1")]⟩ ∈
      inMemorySearch [⟨[], [("tenantId", PValue.s "u1")]⟩] (fun _ => 0) ⟨"u1"⟩
        1 (fun _ => true)) ∧
    plookup [("tenantId", PValue.s "u1")] "tenantId" = some (.s "u1") := by
  refine ⟨by decide, by decide, ?_⟩
  exact (tenant_isolation (fun _ => []) (fun _ _ => 0)
    [⟨"p1", [], [("tenantId", PValue.s "u1")]⟩] ⟨"u1"⟩ ⟨"q", none, none, 10⟩
    [⟨[], [("tenantId", PValue.s "u1")]⟩] (fun _ => 0) 1 (fun _ => true)).1
    [("tenantId", PValue.s "u1")] (by decide)

/-- C6: retrieve filter construction. With no facet filter the conditions
are exactly the tenant equality; with a facet filter they are the tenant
equality followed by one any-of condition per non-empty facet list, in the
order nodeType, url, noteId, resourceId, collectionId; a missing query
vector is replaced by the embedded query text, a supplied one is used as is,
and the result is the matched points' payloads. -/
theorem retrieve_filter_construction
    (uid : String) (f : SearchFilter)
    (embedQuery : String → List Int) (score : List Int → PointStruct → Int)
    (points : List PointStruct) (user : User) (param : HybridSearchParam) :
    retrieveConditions uid none = [tenantCondition uid] ∧
    retrieveConditions uid (some f) =
      tenantCondition uid ::
        ((if f.nodeTypes = [] then []
          else [⟨"nodeType", .any (f.nodeTypes.map PValue.s)⟩]) ++
         (if f.urls = [] then []
          else [⟨"url", .any (f.urls.map PValue.s)⟩]) ++
         (if f.noteIds = [] then []
          else [⟨"noteId", .any (f.noteIds.map PValue.s)⟩]) ++
         (if f.resourceIds = [] then []
          else [⟨"resourceId", .any (f.resourceIds.map PValue.s)⟩]) ++
         (if f.collectionIds = [] then []
          else [⟨"collectionId", .any (f.collectionIds.map PValue.s)⟩])) ∧
    (param.vector = none →
      retrieve embedQuery score points user param =
        (qdrantSearch points (retrieveConditions user.uid param.filter)
          (score (embedQuery param.query)) param.limit).map (·.payload)) ∧
    (∀ v, param.vector = some v →
      retrieve embedQuery score points user param =
        (qdrantSearch points (retrieveConditions user.uid param.filter)
          (score v) param.limit).map (·.payload)) := by
  refine ⟨by simp [retrieveConditions, pushFacet, facet], ?_, ?_, ?_⟩
  · by_cases h1 : f.nodeTypes = [] <;> by_cases h2 : f.urls = [] <;>
      by_cases h3 : f.noteIds = [] <;> by_cases h4 : f.resourceIds = [] <;>
      by_cases h5 : f.collectionIds = [] <;>
      simp [retrieveConditions, pushFacet, facet, List.length_pos,
        h1, h2, h3, h4, h5]
  · intro h
    unfold retrieve
    rw [h]
  · intro v h
    unfold retrieve
    rw [h]

theorem retrieve_filter_construction_witness :
    (retrieve (fun _ => [7]) (fun v _ => v.headD 0) [] ⟨"u1"⟩ ⟨"q", none, none, 5⟩ =
      (qdrantSearch [] (retrieveConditions "u1" none)
        (fun _ => (7 : Int)) 5).map (·.payload)) ∧
    (retrieve (fun _ => [7]) (fun v _ => v.headD 0) [] ⟨"u1"⟩
        ⟨"q", some [3], none, 5⟩ =
      (qdrantSearch [] (retrieveConditions "u1" none)
        (fun _ => (3 : Int)) 5).map (·.payload)) :=
  ⟨(retrieve_filter_construction "u1" ⟨[], [], [], [], []⟩ (fun _ => [7])
      (fun v _ => v.headD 0) [] ⟨"u1"⟩ ⟨"q", none, none, 5⟩).2.2.1 rfl,
   (retrieve_filter_construction "u1" ⟨[], [], [], [], []⟩ (fun _ => [7])
      (fun v _ => v.headD 0) [] ⟨"u1"⟩ ⟨"q", some [3], none, 5⟩).2.2.2 [3] rfl⟩

/-- C7: delete scoping. A point survives `deleteResourceNodes` exactly when
it does not match both the tenant-equality condition on the caller's uid and
the `resourceId` equality, and likewise for `deleteNoteNodes` with `noteId`;
in particular points of other tenants, and points of the same tenant with a
different owner id, are unaffected. -/
theorem delete_scoping (points : List PointStruct) (user : User)
    (rid nid : String) :
    (∀ pt ∈ points,
      (pt ∈ deleteResourceNodes points user rid ↔
        ¬(plookup pt.payload "tenantId" = some (.s user.uid) ∧
          plookup pt.payload "resourceId" = some (.s rid)))) ∧
    (∀ pt ∈ points,
      (pt ∈ deleteNoteNodes points user nid ↔
        ¬(plookup pt.payload "tenantId" = some (.s user.uid) ∧
          plookup pt.payload "noteId" = some (.s nid)))) := by
  constructor
  · intro pt hpt
    unfold deleteResourceNodes qdrantDelete
    rw [List.mem_filter]
    simp only [hpt, true_and, Bool.not_eq_true', filterMatches, List.all_cons,
      List.all_nil, Bool.and_true, Bool.and_eq_false_iff]
    rw [← condMatches_value_iff pt.payload "tenantId" (.s user.uid),
      ← condMatches_value_iff pt.payload "resourceId" (.s rid)]
    constructor
    · intro h hc
      rcases h with h | h <;> simp [hc.1, hc.2] at h
    · intro h
      by_cases h1 : condMatches pt.payload ⟨"tenantId", .value (.s user.uid)⟩ = true
      · by_cases h2 : condMatches pt.payload ⟨"resourceId", .value (.s rid)⟩ = true
        · exact absurd ⟨h1, h2⟩ h
        · exact Or.inr (by simpa using h2)
      · exact Or.inl (by simpa using h1)
  · intro pt hpt
    unfold deleteNoteNodes qdrantDelete
    rw [List.mem_filter]
    simp only [hpt, true_and, Bool.not_eq_true', filterMatches, List.all_cons,
      List.all_nil, Bool.and_true, Bool.and_eq_false_iff]
    rw [← condMatches_value_iff pt.payload "tenantId" (.s user.uid),
      ← condMatches_value_iff pt.payload "noteId" (.s nid)]
    constructor
    · intro h hc
      rcases h with h | h <;> simp [hc.1, hc.2] at h
    · intro h
      by_cases h1 : condMatches pt.payload ⟨"tenantId", .value (.s user.uid)⟩ = true
      · by_cases h2 : condMatches pt.payload ⟨"noteId", .value (.s nid)⟩ = true
        · exact absurd ⟨h1, h2⟩ h
        · exact Or.inr (by simpa using h2)
      · exact Or.inl (by simpa using h1)

theorem delete_scoping_witness :
    (⟨"p2", [], [("tenantId", PValue.s "u2"), ("resourceId", PValue.s "r1")]⟩ ∈
      deleteResourceNodes
        [⟨"p1", [], [("tenantId", PValue.s "u1"), ("resourceId", PValue.s "r1")]⟩,
         ⟨"p2", [], [("tenantId", PValue.s "u2"), ("resourceId", PValue.s "r1")]⟩]
        ⟨"u1"⟩ "r1" ↔
      ¬(plookup [("tenantId", PValue.s "u2"), ("resourceId", PValue.s "r1")]
          "tenantId" = some (.s "u1") ∧
        plookup [("tenantId", PValue.s "u2"), ("resourceId", PValue.s "r1")]
          "resourceId" = some (.s "r1"))) :=
  (delete_scoping
    [⟨"p1", [], [("tenantId", PValue.s "u1"), ("resourceId", PValue.s "r1")]⟩,
     ⟨"p2", [], [("tenantId", PValue.s "u2"), ("resourceId", PValue.s "r1")]⟩]
    ⟨"u1"⟩ "r1" "n1").1
    ⟨"p2", [], [("tenantId", PValue.s "u2"), ("resourceId", PValue.s "r1")]⟩
    (by decide)

/-- Trim leading and trailing whitespace from a character list (the
semantics of JavaScript `trim` / Lean `String.trim`). -/
def trimChars (cs : List Char) : List Char :=
  ((cs.dropWhile Char.isWhitespace).reverse.dropWhile Char.isWhitespace).reverse

/-- Modelled from the spec: `cleanMarkdownForIngest` (from `@refly/utils`,
not in src) is the external text-cleaning collaborator of the chunker; the
spec constrains only the splitter's behavior on its already-cleaned input,
so the normalization itself is modelled as the identity. -/
def cleanMarkdownForIngest (cs : List Char) : List Char := cs

/-- The configured maximum chunk size (`chunkSize: 1000`, `chunkOverlap: 0`). -/
def chunkSize : Nat := 1000

/-- Modelled from the spec: the next span length chosen by the splitter
(langchain `RecursiveCharacterTextSplitter.fromLanguage('markdown')`, not in
src): the whole text when it fits, otherwise at most `chunkSize` characters,
preferring to break just after the last whitespace in the window (the
paragraph/sentence-preferring boundary strategy). -/
def breakLen (cs : List Char) : Nat :=
  if cs.length ≤ chunkSize then cs.length
  else
    let t := ((cs.take chunkSize).reverse.takeWhile (fun c => !c.isWhitespace)).length
    if t < chunkSize then chunkSize - t else chunkSize

theorem breakLen_le_length (cs : List Char) : breakLen cs ≤ cs.length := by
  unfold breakLen
  split
  · exact Nat.le_refl _
  · rename_i h
    dsimp only
    split <;> omega

theorem breakLen_le_chunkSize (cs : List Char) : breakLen cs ≤ chunkSize := by
  unfold breakLen
  split
  · assumption
  · dsimp only
    split <;> omega

theorem breakLen_pos (cs : List Char) (h : cs ≠ []) : 0 < breakLen cs := by
  have hl : 0 < cs.length := List.length_pos.2 h
  unfold breakLen chunkSize
  split
  · exact hl
  · dsimp only
    split <;> omega

/-- Fuelled splitting loop: emit the next span length and recurse on the
remaining characters (the fuel starts at the text length and dominates it). -/
def chunkSizesGo : Nat → List Char → List Nat
  | _, [] => []
  | 0, _ => []
  | fuel + 1, cs => breakLen cs :: chunkSizesGo fuel (cs.drop (breakLen cs))

/-- The ordered span lengths the splitter cuts the text into. -/
def chunkSizes (cs : List Char) : List Nat :=
  chunkSizesGo cs.length cs

/-- Turn consecutive span lengths into `(start, end)` character offsets. -/
def spansFrom (s : Nat) : List Nat → List (Nat × Nat)
  | [] => []
  | k :: ks => (s, s + k) :: spansFrom (s + k) ks

/-- The `(start, end)` spans of the splitter's chunks, offsets into its
input text. -/
def chunkSpans (cs : List Char) : List (Nat × Nat) :=
  spansFrom 0 (chunkSizes cs)

/-- The characters of a span: `cs[s..e)`. -/
def sliceChars (cs : List Char) (s e : Nat) : List Char :=
  (cs.drop s).take (e - s)

/-- Modelled from the spec: the splitter's output (`splitText`): the trimmed
contents of each span. -/
def splitTextChars (cs : List Char) : List (List Char) :=
  (chunkSpans cs).map (fun se => trimChars (sliceChars cs se.1 se.2))

/-- `RAGService.chunkText`: clean the markdown, then split. -/
def chunkText (text : List Char) : List (List Char) :=
  splitTextChars (cleanMarkdownForIngest text)

theorem trimChars_length_le (cs : List Char) : (trimChars cs).length ≤ cs.length := by
  unfold trimChars
  rw [List.length_reverse]
  calc ((cs.dropWhile Char.isWhitespace).reverse.dropWhile Char.isWhitespace).length
      ≤ (cs.dropWhile Char.isWhitespace).reverse.length :=
        (List.dropWhile_sublist _).length_le
    _ = (cs.dropWhile Char.isWhitespace).length := List.length_reverse _
    _ ≤ cs.length := (List.dropWhile_sublist _).length_le

theorem chunkSizesGo_sum (fuel : Nat) : ∀ cs : List Char, cs.length ≤ fuel →
    (chunkSizesGo fuel cs).sum = cs.length := by
  induction fuel with
  | zero =>
    intro cs h
    have : cs = [] := List.length_eq_zero.1 (Nat.le_zero.1 h)
    subst this
    rfl
  | succ fuel ih =>
    intro cs h
    cases cs with
    | nil => rfl
    | cons c cs' =>
      have hne : (c :: cs') ≠ [] := by simp
      have hpos := breakLen_pos _ hne
      have hle := breakLen_le_length (c :: cs')
      rw [show chunkSizesGo (fuel + 1) (c :: cs')
          = breakLen (c :: cs')
            :: chunkSizesGo fuel ((c :: cs').drop (breakLen (c :: cs'))) from rfl]
      rw [List.sum_cons, ih _ (by rw [List.length_drop]; omega)]
      rw [List.length_drop]
      omega

theorem chunkSizes_sum (cs : List Char) : (chunkSizes cs).sum = cs.length :=
  chunkSizesGo_sum cs.length cs (Nat.le_refl _)

theorem chunkSizesGo_le (fuel : Nat) : ∀ cs : List Char, ∀ k ∈ chunkSizesGo fuel cs,
    k ≤ chunkSize := by
  induction fuel with
  | zero =>
    intro cs k hk
    cases cs <;> simp [chunkSizesGo] at hk
  | succ fuel ih =>
    intro cs k hk
    cases cs with
    | nil => simp [chunkSizesGo] at hk
    | cons c cs' =>
      rw [show chunkSizesGo (fuel + 1) (c :: cs')
          = breakLen (c :: cs')
            :: chunkSizesGo fuel ((c :: cs').drop (breakLen (c :: cs'))) from rfl,
        List.mem_cons] at hk
      rcases hk with hk | hk
      · exact hk ▸ breakLen_le_chunkSize _
      · exact ih _ _ hk

theorem chunkSizes_le (cs : List Char) : ∀ k ∈ chunkSizes cs, k ≤ chunkSize :=
  chunkSizesGo_le cs.length cs

theorem spansFrom_size_le {ks : List Nat} (hks : ∀ k ∈ ks, k ≤ chunkSize) :
    ∀ s : Nat, ∀ se ∈ spansFrom s ks, se.2 - se.1 ≤ chunkSize := by
  induction ks with
  | nil => intro s se h; simp [spansFrom] at h
  | cons k ks ih =>
    intro s se h
    rw [spansFrom, List.mem_cons] at h
    rcases h with h | h
    · subst h
      have := hks k (by simp)
      simpa using Nat.le_trans (Nat.le_of_eq (by omega)) this
    · exact ih (fun x hx => hks x (by simp [hx])) _ se h

theorem flatten_spans_slices (full : List Char) (ks : List Nat) : ∀ s : Nat,
    ((spansFrom s ks).map (fun se => sliceChars full se.1 se.2)).flatten
      = (full.drop s).take ks.sum := by
  induction ks with
  | nil => intro s; simp [spansFrom]
  | cons k ks ih =>
    intro s
    rw [spansFrom, List.map_cons, List.flatten_cons, ih (s + k), List.sum_cons]
    have h1 : sliceChars full s (s + k) = (full.drop s).take k := by
      unfold sliceChars
      rw [Nat.add_sub_cancel_left]
    have h2 : full.drop (s + k) = (full.drop s).drop k := by
      rw [List.drop_drop]
    rw [h1, h2, ← List.take_add]

/-- C4: chunker contract. Every chunk produced by `chunkText` has trimmed
length at most the configured maximum (1000); concatenating the chunks'
original (untrimmed) spans, in order, reconstructs the splitter's input (the
cleaned text) losslessly; and the empty string yields the empty sequence. -/
theorem chunker_contract (text : List Char) :
    (∀ c ∈ chunkText text, (trimChars c).length ≤ chunkSize) ∧
    ((chunkSpans (cleanMarkdownForIngest text)).map
        (fun se => sliceChars (cleanMarkdownForIngest text) se.1 se.2)).flatten
      = cleanMarkdownForIngest text ∧
    chunkText [] = [] := by
  refine ⟨?_, ?_, rfl⟩
  · intro c hc
    unfold chunkText splitTextChars at hc
    rw [List.mem_map] at hc
    obtain ⟨se, hse, rfl⟩ := hc
    have h1 : se.2 - se.1 ≤ chunkSize :=
      spansFrom_size_le (chunkSizes_le _) 0 se hse
    calc (trimChars (trimChars (sliceChars (cleanMarkdownForIngest text) se.1 se.2))).length
        ≤ (trimChars (sliceChars (cleanMarkdownForIngest text) se.1 se.2)).length :=
          trimChars_length_le _
      _ ≤ (sliceChars (cleanMarkdownForIngest text) se.1 se.2).length :=
          trimChars_length_le _
      _ ≤ se.2 - se.1 := List.length_take_le _ _
      _ ≤ chunkSize := h1
  · rw [chunkSpans, flatten_spans_slices, chunkSizes_sum, List.drop_zero,
      List.take_length]

theorem chunker_contract_witness :
    (['a', 'b'] ∈ chunkText ['a', 'b']) ∧
    (trimChars ['a', 'b']).length ≤ chunkSize :=
  ⟨by decide, (chunker_contract ['a', 'b']).1 ['a', 'b'] (by decide)⟩

theorem find?_filter_ne_none (p : Payload) (k : String) :
    (p.filter (fun kv => kv.1 != k)).find? (fun kv => kv.1 == k) = none := by
  induction p with
  | nil => rfl
  | cons kv p ih =>
    rw [List.filter_cons]
    by_cases h : (kv.1 == k) = true
    · simp only [bne, h, Bool.not_true, Bool.false_eq_true, if_false]
      exact ih
    · have h' : (kv.1 != k) = true := by simp [bne, h]
      rw [if_pos h', List.find?_cons_of_neg _ (by simp [h]), ih]

theorem find?_filter_ne (p : Payload) {k k' : String} (h : k ≠ k') :
    (p.filter (fun kv => kv.1 != k')).find? (fun kv => kv.1 == k)
      = p.find? (fun kv => kv.1 == k) := by
  induction p with
  | nil => rfl
  | cons kv p ih =>
    rw [List.filter_cons]
    by_cases hk : (kv.1 == k') = true
    · have hkk : kv.1 ≠ k := by
        rw [beq_iff_eq] at hk
        rw [hk]
        exact fun hc => h hc.symm
      rw [if_neg (by simp [bne, hk]), ih,
        List.find?_cons_of_neg _ (by simpa using hkk)]
    · rw [if_pos (by simp [bne, hk]), List.find?_cons, List.find?_cons]
      cases hkv : (kv.1 == k) with
      | true => rfl
      | false => exact ih

/-- Updating a key makes it read back the written value. -/
theorem plookup_pset_self (p : Payload) (k : String) (v : PValue) :
    plookup (pset p k v) k = some v := by
  unfold plookup pset
  rw [List.find?_append, find?_filter_ne_none]
  simp

/-- Updating one key leaves every other key's binding unchanged. -/
theorem plookup_pset_ne (p : Payload) {k k' : String} (v : PValue) (h : k ≠ k') :
    plookup (pset p k' v) k = plookup p k := by
  unfold plookup pset
  rw [List.find?_append, find?_filter_ne p h]
  cases hf : p.find? (fun kv => kv.1 == k) with
  | none =>
    have : (k' == k) = false := by
      rw [beq_eq_false_iff_ne]
      exact fun hc => h hc.symm
    simp [List.find?, this]
  | some x => rfl

/-- The numeric `start` offset stored in an ephemeral document's metadata. -/
def startOf (d : MemDoc) : Nat :=
  match plookup d.metadata "start" with
  | some (.n v) => v
  | _ => 0

/-- The numeric `end` offset stored in an ephemeral document's metadata. -/
def endOf (d : MemDoc) : Nat :=
  match plookup d.metadata "end" with
  | some (.n v) => v
  | _ => 0

/-- The per-chunk loop of `RAGService.inMemoryIndexContent`: each chunk is
trimmed and stored with the metadata spread-extended by tenantId, start and
end, where start continues from the accumulated trimmed length. -/
def buildMemDocs (uid : String) (meta : Payload) :
    Nat → List (List Char) → List MemDoc
  | _, [] => []
  | s, c :: cs =>
    ⟨trimChars c,
      pset (pset (pset meta "tenantId" (.s uid)) "start" (.n s))
        "end" (.n (s + (trimChars c).length))⟩
      :: buildMemDocs uid meta (s + (trimChars c).length) cs

/-- The documents `RAGService.inMemoryIndexContent` adds to the ephemeral
index: the (optionally) chunked content, trimmed and stamped. -/
def inMemoryIndexDocs (user : User) (doc : MemDoc) (needChunk : Bool) :
    List MemDoc :=
  let chunks := if needChunk then chunkText doc.pageContent else [doc.pageContent]
  buildMemDocs user.uid doc.metadata 0 chunks

/-- `RAGService.inMemoryIndexContent`: the ephemeral index after the add
(`MemoryVectorStore.addDocuments` appends). -/
def inMemoryIndexContent (memStore : List MemDoc) (user : User) (doc : MemDoc)
    (needChunk : Bool) : List MemDoc :=
  memStore ++ inMemoryIndexDocs user doc needChunk

/-- Stored offsets are consecutive from `s`, with each `end` equal to
`start` plus the stored content's length. -/
def offsetInv : Nat → List MemDoc → Bool
  | _, [] => true
  | s, d :: ds =>
    (startOf d == s) && (endOf d == s + d.pageContent.length) &&
      offsetInv (s + d.pageContent.length) ds

theorem offsetInv_buildMemDocs (uid : String) (meta : Payload) :
    ∀ (chunks : List (List Char)) (s : Nat),
      offsetInv s (buildMemDocs uid meta s chunks) = true := by
  intro chunks
  induction chunks with
  | nil => intro s; rfl
  | cons c cs ih =>
    intro s
    show (offsetInv s (⟨trimChars c, _⟩ :: buildMemDocs uid meta (s + (trimChars c).length) cs)) = true
    rw [offsetInv]
    have hs : startOf ⟨trimChars c,
        pset (pset (pset meta "tenantId" (.s uid)) "start" (.n s))
          "end" (.n (s + (trimChars c).length))⟩ = s := by
      unfold startOf
      rw [plookup_pset_ne _ _ (by decide), plookup_pset_self]
    have he : endOf ⟨trimChars c,
        pset (pset (pset meta "tenantId" (.s uid)) "start" (.n s))
          "end" (.n (s + (trimChars c).length))⟩ = s + (trimChars c).length := by
      unfold endOf
      rw [plookup_pset_self]
    rw [hs, he, ih (s + (trimChars c).length)]
    simp

theorem offsetInv_slice : ∀ (ds : List MemDoc) (pre : List Char),
    offsetInv pre.length ds = true →
    ∀ i, ∀ h : i < ds.length,
      sliceChars (pre ++ (ds.map (·.pageContent)).flatten)
        (startOf (ds.get ⟨i, h⟩)) (endOf (ds.get ⟨i, h⟩))
        = (ds.get ⟨i, h⟩).pageContent := by
  intro ds
  induction ds with
  | nil =>
    intro pre h i hi
    exact absurd hi (by simp)
  | cons d ds ih =>
    intro pre h i hi
    rw [offsetInv] at h
    simp only [Bool.and_eq_true, beq_iff_eq] at h
    obtain ⟨⟨hs, he⟩, hrest⟩ := h
    cases i with
    | zero =>
      show sliceChars (pre ++ ((d :: ds).map (·.pageContent)).flatten)
        (startOf d) (endOf d) = d.pageContent
      have hflat : ((d :: ds).map (·.pageContent)).flatten
          = d.pageContent ++ (ds.map (·.pageContent)).flatten := by simp
      rw [hflat]
      unfold sliceChars
      rw [hs, he, Nat.add_sub_cancel_left, List.drop_left, List.take_left]
    | succ i =>
      have hi' : i < ds.length := by simpa using hi
      have h' : offsetInv (pre ++ d.pageContent).length ds = true := by
        rw [List.length_append]
        exact hrest
      have hih := ih (pre ++ d.pageContent) h' i hi'
      show sliceChars (pre ++ ((d :: ds).map (·.pageContent)).flatten)
        (startOf (ds.get ⟨i, hi'⟩)) (endOf (ds.get ⟨i, hi'⟩))
        = (ds.get ⟨i, hi'⟩).pageContent
      simpa [List.append_assoc] using hih

/-- C10 counterexample: with content `"  hi"` (leading whitespace) indexed
unchunked, the single stored chunk has start 0 and end 2 but the original
content's characters at offsets `[0, 2)` are `"  "`, not the stored `"hi"`:
the stored offsets are not offsets into the original document content. -/
theorem chunk_offsets_counterexample :
    ((inMemoryIndexDocs ⟨"u1"⟩ ⟨[' ', ' ', 'h', 'i'], []⟩ false).all (fun d =>
      sliceChars [' ', ' ', 'h', 'i'] (startOf d) (endOf d) == d.pageContent))
      = false := by decide

/-- C10 (amended): for every document indexed via `inMemoryIndexContent`,
the stored chunks' `[start, end)` intervals are consecutive from 0 (hence
non-overlapping and monotonically increasing), each `end − start` equals the
stored (trimmed) chunk content's length, and the intervals are character
offsets into the concatenation of the trimmed chunk contents (the trimmed
text), which they cover exactly once. -/
theorem chunk_offsets_amended (user : User) (doc : MemDoc) (needChunk : Bool) :
    offsetInv 0 (inMemoryIndexDocs user doc needChunk) = true ∧
    (∀ i, ∀ h : i < (inMemoryIndexDocs user doc needChunk).length,
      sliceChars
        (((inMemoryIndexDocs user doc needChunk).map (·.pageContent)).flatten)
        (startOf ((inMemoryIndexDocs user doc needChunk).get ⟨i, h⟩))
        (endOf ((inMemoryIndexDocs user doc needChunk).get ⟨i, h⟩))
        = ((inMemoryIndexDocs user doc needChunk).get ⟨i, h⟩).pageContent) := by
  have h0 : offsetInv 0 (inMemoryIndexDocs user doc needChunk) = true := by
    unfold inMemoryIndexDocs
    exact offsetInv_buildMemDocs user.uid doc.metadata _ 0
  refine ⟨h0, ?_⟩
  intro i h
  have hres := offsetInv_slice (inMemoryIndexDocs user doc needChunk) []
    (by simpa using h0) i h
  simpa using hres

theorem chunk_offsets_amended_witness :
    sliceChars
      (((inMemoryIndexDocs ⟨"u1"⟩ ⟨['h', 'i'], []⟩ false).map (·.pageContent)).flatten)
      (startOf ((inMemoryIndexDocs ⟨"u1"⟩ ⟨['h', 'i'], []⟩ false).get ⟨0, by decide⟩))
      (endOf ((inMemoryIndexDocs ⟨"u1"⟩ ⟨['h', 'i'], []⟩ false).get ⟨0, by decide⟩))
      = ((inMemoryIndexDocs ⟨"u1"⟩ ⟨['h', 'i'], []⟩ false).get ⟨0, by decide⟩).pageContent :=
  (chunk_offsets_amended ⟨"u1"⟩ ⟨['h', 'i'], []⟩ false).2 0 (by decide)

/-- Modelled from the spec: `genResourceUuid` (from `@/utils`, not in src):
a deterministic uuid derivation from a name string, modelled as an injective
tagging function. -/
def genResourceUuid (name : String) : String := "uuid-" ++ name

/-- Read a string-valued metadata field (TS property access). -/
def metaStr (m : Payload) (k : String) : String :=
  match plookup m k with
  | some (.s v) => v
  | _ => ""

/-- Document id selection of `RAGService.indexContent`: `noteId` when the
metadata's nodeType is 'note', `resourceId` otherwise. -/
def docIdOf (m : Payload) : String :=
  if plookup m "nodeType" = some (.s "note") then metaStr m "noteId"
  else metaStr m "resourceId"

/-- Payload of the i-th point: the document metadata spread-extended with
seq = i, content = the i-th chunk, tenantId = the caller's uid (source
order). -/
def pointPayload (meta : Payload) (i : Nat) (chunk : List Char) (uid : String) :
    Payload :=
  pset (pset (pset meta "seq" (.n i)) "content" (.s (String.mk chunk)))
    "tenantId" (.s uid)

/-- The point construction loop of `RAGService.indexContent`: point `i` has
id `genResourceUuid (docId ++ "-" ++ i)`, the i-th chunk's embedding as its
vector, and the stamped payload. -/
def buildPoints (uid : String) (meta : Payload) (docId : String) :
    Nat → List (List Char) → List (List Int) → List PointStruct
  | _, [], _ => []
  | i, c :: cs, es =>
    ⟨genResourceUuid (docId ++ "-" ++ toString i), es.headD [],
      pointPayload meta i c uid⟩
      :: buildPoints uid meta docId (i + 1) cs es.tail

/-- Modelled from the spec: `QdrantService.estimatePointsSize` (not in src):
a pure function of the points' serialized sizes. -/
def pvalueSize : PValue → Nat
  | .s v => v.length
  | .n _ => 8

/-- Estimated storage size of a batch of points. -/
def estimatePointsSize (pts : List PointStruct) : Nat :=
  (pts.map (fun p =>
    4 * p.vector.length
      + (p.payload.map (fun kv => kv.1.length + pvalueSize kv.2)).sum)).sum

/-- `RAGService.indexContent`: chunk the content, embed the chunk batch (a
failure of the provider propagates before anything is written), build one
point per chunk and upsert them all into the durable store; returns the new
store state and the result (estimated size, or the embedding error). -/
def indexContent
    (embedDocuments : List (List Char) → Except String (List (List Int)))
    (store : List PointStruct) (user : User) (doc : MemDoc) :
    List PointStruct × Except String Nat :=
  let chunks := chunkText doc.pageContent
  match embedDocuments chunks with
  | .error e => (store, .error e)
  | .ok chunkEmbeds =>
    let points := buildPoints user.uid doc.metadata (docIdOf doc.metadata)
      0 chunks chunkEmbeds
    (batchSaveData store points, .ok (estimatePointsSize points))

/-- C3: embedding failure aborts before any write. If the batched embedding
call fails, `indexContent` fails as a whole with that error and the durable
store is byte-for-byte the store passed in: zero points were upserted. -/
theorem embedding_failure_aborts
    (embedDocuments : List (List Char) → Except String (List (List Int)))
    (store : List PointStruct) (user : User) (doc : MemDoc) (e : String)
    (h : embedDocuments (chunkText doc.pageContent) = .error e) :
    indexContent embedDocuments store user doc = (store, .error e) := by
  unfold indexContent
  dsimp only
  rw [h]

theorem embedding_failure_aborts_witness :
    indexContent (fun _ => .error "boom") [⟨"p1", [], []⟩] ⟨"u1"⟩ ⟨['h', 'i'], []⟩
      = ([⟨"p1", [], []⟩], .error "boom") :=
  embedding_failure_aborts (fun _ => .error "boom") [⟨"p1", [], []⟩] ⟨"u1"⟩
    ⟨['h', 'i'], []⟩ "boom" rfl

theorem buildPoints_map_id (uid : String) (meta : Payload) (docId : String) :
    ∀ (chunks : List (List Char)) (i : Nat) (es : List (List Int)),
      (buildPoints uid meta docId i chunks es).map (·.id)
        = (List.range' i chunks.length).map
            (fun j => genResourceUuid (docId ++ "-" ++ toString j)) := by
  intro chunks
  induction chunks with
  | nil => intro i es; rfl
  | cons c cs ih =>
    intro i es
    rw [show buildPoints uid meta docId i (c :: cs) es
        = ⟨genResourceUuid (docId ++ "-" ++ toString i), es.headD [],
            pointPayload meta i c uid⟩
          :: buildPoints uid meta docId (i + 1) cs es.tail from rfl]
    rw [List.map_cons, ih (i + 1) es.tail, List.length_cons, List.range'_succ,
      List.map_cons]

theorem buildPoints_map_payload (uid : String) (meta : Payload) (docId : String) :
    ∀ (chunks : List (List Char)) (i : Nat) (es : List (List Int)),
      (buildPoints uid meta docId i chunks es).map (·.payload)
        = (chunks.enumFrom i).map
            (fun ic => pointPayload meta ic.1 ic.2 uid) := by
  intro chunks
  induction chunks with
  | nil => intro i es; rfl
  | cons c cs ih =>
    intro i es
    rw [show buildPoints uid meta docId i (c :: cs) es
        = ⟨genResourceUuid (docId ++ "-" ++ toString i), es.headD [],
            pointPayload meta i c uid⟩
          :: buildPoints uid meta docId (i + 1) cs es.tail from rfl]
    rw [List.map_cons, ih (i + 1) es.tail]
    rfl

/-- C5: vector point construction and idempotent identity. The points built
by `indexContent` have, in order, ids deterministically derived from the
document id (noteId for nodeType 'note', resourceId otherwise) and the chunk
index, and payloads equal to the metadata extended with seq = i, content =
the i-th chunk and tenantId = the caller's uid; and upserting a point whose
id is already stored replaces the stored point in place — the set of stored
ids is unchanged and the point under that id is the new one, not a
duplicate. -/
theorem point_identity (user : User) (doc : MemDoc) (embeds : List (List Int))
    (store : List PointStruct) (p : PointStruct) :
    ((buildPoints user.uid doc.metadata (docIdOf doc.metadata) 0
        (chunkText doc.pageContent) embeds).map (·.id)
      = (List.range' 0 (chunkText doc.pageContent).length).map
          (fun i => genResourceUuid (docIdOf doc.metadata ++ "-" ++ toString i))) ∧
    ((buildPoints user.uid doc.metadata (docIdOf doc.metadata) 0
        (chunkText doc.pageContent) embeds).map (·.payload)
      = ((chunkText doc.pageContent).enum).map
          (fun ic => pointPayload doc.metadata ic.1 ic.2 user.uid)) ∧
    (store.any (fun q => q.id == p.id) = true →
      ((upsertPoint store p).map (·.id) = store.map (·.id) ∧
        ∀ q ∈ upsertPoint store p, q.id = p.id → q = p)) := by
  refine ⟨buildPoints_map_id _ _ _ _ 0 embeds, ?_, ?_⟩
  · rw [buildPoints_map_payload _ _ _ _ 0 embeds]
    rfl
  · intro hany
    unfold upsertPoint
    rw [if_pos hany]
    constructor
    · rw [List.map_map]
      apply List.map_congr_left
      intro a _
      by_cases hq : (a.id == p.id) = true
      · simp only [Function.comp_apply, if_pos hq]
        exact (beq_iff_eq.1 hq).symm
      · simp only [Function.comp_apply, if_neg hq]
    · intro q hq hid
      rw [List.mem_map] at hq
      obtain ⟨a, _, rfl⟩ := hq
      by_cases ha : (a.id == p.id) = true
      · rw [if_pos ha]
      · rw [if_neg ha] at hid ⊢
        exact absurd (beq_iff_eq.2 hid) ha

theorem point_identity_witness :
    (([⟨"uuid-d-0", [], []⟩] : List PointStruct).any
        (fun q => q.id == "uuid-d-0") = true) ∧
    ((upsertPoint [⟨"uuid-d-0", [], []⟩] ⟨"uuid-d-0", [1], [("x", PValue.n 1)]⟩).map (·.id)
        = ([⟨"uuid-d-0", [], []⟩] : List PointStruct).map (·.id) ∧
      ∀ q ∈ upsertPoint [⟨"uuid-d-0", [], []⟩] ⟨"uuid-d-0", [1], [("x", PValue.n 1)]⟩,
        q.id = "uuid-d-0" → q = ⟨"uuid-d-0", [1], [("x", PValue.n 1)]⟩) :=
  ⟨by decide,
    (point_identity ⟨"u1"⟩ ⟨['h', 'i'], []⟩ [] [⟨"uuid-d-0", [], []⟩]
      ⟨"uuid-d-0", [1], [("x", PValue.n 1)]⟩).2.2 (by decide)⟩

/-- A remote reader result (`ReaderResult`, declared in rag.dto which is not
in src); only its identity matters here. -/
structure ReaderResult where
  data : String
deriving DecidableEq

/-- The in-memory LRU crawl cache from URLs to reader results, most recent
first (`lru-cache` instantiated with `max: 1000`). -/
structure LRU where
  maxSize : Nat
  entries : List (String × ReaderResult)
deriving DecidableEq

/-- Cache lookup. -/
def LRU.getVal (c : LRU) (k : String) : Option ReaderResult :=
  (c.entries.find? (fun kv => kv.1 == k)).map (·.2)

/-- Recency update performed by a cache hit: the hit entry moves to the
front. -/
def LRU.touch (c : LRU) (k : String) : LRU :=
  match c.entries.find? (fun kv => kv.1 == k) with
  | some kv => ⟨c.maxSize, kv :: c.entries.filter (fun e => e.1 != k)⟩
  | none => c

/-- Cache insertion: the new entry becomes the most recent, any previous
entry for the key is dropped, and least-recently-used entries beyond the
capacity are evicted. -/
def LRU.setVal (c : LRU) (k : String) (v : ReaderResult) : LRU :=
  ⟨c.maxSize, ((k, v) :: c.entries.filter (fun e => e.1 != k)).take c.maxSize⟩

/-- The remote reader's HTTP response: status, status text, and the parsed
JSON payload (`none` models a malformed or empty payload). -/
structure FetchResponse where
  status : Nat
  statusText : String
  data : Option ReaderResult

/-- Failure of `crawlFromRemoteReader` (the spec's `RetrievalError`): a
non-200 upstream status carrying the status and message, or a malformed
payload. -/
inductive RetrievalError where
  | badStatus (status : Nat) (statusText : String)
  | invalidData (statusText : String)
deriving DecidableEq

/-- Outcome of one `crawlFromRemoteReader` call: the cache afterwards, the
result, and whether a network fetch was performed. -/
structure CrawlOutcome where
  cache : LRU
  result : Except RetrievalError ReaderResult
  fetched : Bool

/-- `RAGService.crawlFromRemoteReader`: return the cached result on a hit
(no network access); on a miss fetch the URL, fail hard on a non-200 status
or a malformed payload (the cache is left untouched), and on success store
the result keyed by the URL before returning it. -/
def crawlFromRemoteReader (fetch : String → FetchResponse) (cache : LRU)
    (url : String) : CrawlOutcome :=
  match cache.getVal url with
  | some v => ⟨cache.touch url, .ok v, false⟩
  | none =>
    let resp := fetch url
    if resp.status ≠ 200 then
      ⟨cache, .error (.badStatus resp.status resp.statusText), true⟩
    else
      match resp.data with
      | none => ⟨cache, .error (.invalidData resp.statusText), true⟩
      | some d => ⟨cache.setVal url d, .ok d, true⟩

/-- C8: remote fetch failure semantics. On a cache miss, a non-200 upstream
status makes `crawlFromRemoteReader` fail with a `RetrievalError` carrying
the upstream status and message, and a malformed (empty) payload makes it
fail with a `RetrievalError` as well; in both cases no partial data is
returned and the cache is exactly the cache passed in (the failed URL is
not stored). -/
theorem crawl_failure (fetch : String → FetchResponse) (cache : LRU)
    (url : String) (hmiss : cache.getVal url = none) :
    ((fetch url).status ≠ 200 →
      crawlFromRemoteReader fetch cache url
        = ⟨cache, .error (.badStatus (fetch url).status (fetch url).statusText),
            true⟩) ∧
    ((fetch url).status = 200 → (fetch url).data = none →
      crawlFromRemoteReader fetch cache url
        = ⟨cache, .error (.invalidData (fetch url).statusText), true⟩) := by
  constructor
  · intro h
    unfold crawlFromRemoteReader
    rw [hmiss]
    dsimp only
    rw [if_pos h]
  · intro h hd
    unfold crawlFromRemoteReader
    rw [hmiss]
    dsimp only
    rw [if_neg (by simp [h]), hd]

theorem crawl_failure_witness :
    (crawlFromRemoteReader (fun _ => ⟨500, "ISE", none⟩) ⟨1000, []⟩ "u"
      = ⟨⟨1000, []⟩, .error (.badStatus 500 "ISE"), true⟩) ∧
    (crawlFromRemoteReader (fun _ => ⟨200, "OK", none⟩) ⟨1000, []⟩ "u"
      = ⟨⟨1000, []⟩, .error (.invalidData "OK"), true⟩) :=
  ⟨(crawl_failure (fun _ => ⟨500, "ISE", none⟩) ⟨1000, []⟩ "u" rfl).1 (by decide),
   (crawl_failure (fun _ => ⟨200, "OK", none⟩) ⟨1000, []⟩ "u" rfl).2 rfl rfl⟩

/-- Within capacity, a freshly set key reads back the stored value. -/
theorem LRU.getVal_setVal_self (c : LRU) (k : String) (v : ReaderResult)
    (hmax : 0 < c.maxSize) : (c.setVal k v).getVal k = some v := by
  unfold LRU.setVal LRU.getVal
  cases hm : c.maxSize with
  | zero => omega
  | succ n =>
    rw [List.take_succ_cons, List.find?_cons_of_pos _ (by simp)]
    rfl

/-- C9: fetch cache correctness. After a successful crawl of a URL the
result is stored in the cache under that URL, any cache hit returns the
stored result with no network fetch, and in particular a subsequent crawl of
the same URL — under any fetcher — returns the identical stored result
without fetching. -/
theorem cache_correctness (fetch fetchB : String → FetchResponse) (cache : LRU)
    (url : String) (d : ReaderResult)
    (hmax : 0 < cache.maxSize)
    (hmiss : cache.getVal url = none)
    (hstatus : (fetch url).status = 200)
    (hdata : (fetch url).data = some d) :
    (crawlFromRemoteReader fetch cache url).result = .ok d ∧
    (crawlFromRemoteReader fetch cache url).cache.getVal url = some d ∧
    (∀ (cache2 : LRU) (v : ReaderResult), cache2.getVal url = some v →
      crawlFromRemoteReader fetchB cache2 url
        = ⟨cache2.touch url, .ok v, false⟩) ∧
    crawlFromRemoteReader fetchB (crawlFromRemoteReader fetch cache url).cache url
      = ⟨(crawlFromRemoteReader fetch cache url).cache.touch url, .ok d, false⟩ := by
  have hcrawl : crawlFromRemoteReader fetch cache url
      = ⟨cache.setVal url d, .ok d, true⟩ := by
    unfold crawlFromRemoteReader
    rw [hmiss]
    dsimp only
    rw [if_neg (by simp [hstatus]), hdata]
  have hhit : ∀ (cache2 : LRU) (v : ReaderResult), cache2.getVal url = some v →
      crawlFromRemoteReader fetchB cache2 url
        = ⟨cache2.touch url, .ok v, false⟩ := by
    intro c2 v hv
    unfold crawlFromRemoteReader
    rw [hv]
  refine ⟨by rw [hcrawl], ?_, hhit, ?_⟩
  · rw [hcrawl]
    exact LRU.getVal_setVal_self cache url d hmax
  · rw [hcrawl]
    exact hhit _ d (LRU.getVal_setVal_self cache url d hmax)

theorem cache_correctness_witness :
    ((crawlFromRemoteReader (fun _ => ⟨200, "OK", some ⟨"body"⟩⟩) ⟨1000, []⟩ "u").result
      = .ok ⟨"body"⟩) ∧
    crawlFromRemoteReader (fun _ => ⟨500, "ISE", none⟩)
        (crawlFromRemoteReader (fun _ => ⟨200, "OK", some ⟨"body"⟩⟩) ⟨1000, []⟩ "u").cache
        "u"
      = ⟨(crawlFromRemoteReader (fun _ => ⟨200, "OK", some ⟨"body"⟩⟩)
            ⟨1000, []⟩ "u").cache.touch "u", .ok ⟨"body"⟩, false⟩ :=
  ⟨(cache_correctness (fun _ => ⟨200, "OK", some ⟨"body"⟩⟩)
      (fun _ => ⟨500, "ISE", none⟩) ⟨1000, []⟩ "u" ⟨"body"⟩
      (by decide) rfl rfl rfl).1,
   (cache_correctness (fun _ => ⟨200, "OK", some ⟨"body"⟩⟩)
      (fun _ => ⟨500, "ISE", none⟩) ⟨1000, []⟩ "u" ⟨"body"⟩
      (by decide) rfl rfl rfl).2.2.2⟩

/-- Base-128 varint encoding of a natural number (the Avro long wire format
after zigzag), least-significant group first, high bit marking
continuation. Bytes are modelled as naturals below 256. -/
def varintEncode (n : Nat) : List Nat :=
  if h : n < 128 then [n]
  else (n % 128 + 128) :: varintEncode (n / 128)
decreasing_by exact Nat.div_lt_self (by omega) (by omega)

/-- Varint decoding, returning the value and the remaining bytes. -/
def varintDecode : List Nat → Option (Nat × List Nat)
  | [] => none
  | b :: rest =>
    if b < 128 then some (b, rest)
    else
      match varintDecode rest with
      | some (m, rest') => some (m * 128 + (b - 128), rest')
      | none => none

theorem varintDecode_encode (n : Nat) : ∀ rest : List Nat,
    varintDecode (varintEncode n ++ rest) = some (n, rest) := by
  induction n using Nat.strong_induction_on with
  | _ n ih =>
    intro rest
    by_cases h : n < 128
    · unfold varintEncode
      rw [dif_pos h]
      simp [varintDecode, h]
    · unfold varintEncode
      rw [dif_neg h]
      have hb : ¬(n % 128 + 128 < 128) := by omega
      rw [List.cons_append]
      simp only [varintDecode, if_neg hb]
      rw [ih (n / 128) (Nat.div_lt_self (by omega) (by omega)) rest]
      dsimp only
      have heq : n / 128 * 128 + (n % 128 + 128 - 128) = n := by omega
      rw [heq]

/-- Avro long encoding of a non-negative length/count: zigzag then varint. -/
def encodeLen (n : Nat) : List Nat := varintEncode (2 * n)

/-- Avro long decoding of a non-negative length/count; negative (odd zigzag)
values are rejected. -/
def decodeLen (bs : List Nat) : Option (Nat × List Nat) :=
  match varintDecode bs with
  | some (m, r) => if m % 2 = 0 then some (m / 2, r) else none
  | none => none

theorem decodeLen_encodeLen (n : Nat) (rest : List Nat) :
    decodeLen (encodeLen n ++ rest) = some (n, rest) := by
  unfold decodeLen encodeLen
  rw [varintDecode_encode (2 * n) rest]
  dsimp only
  have h1 : 2 * n % 2 = 0 := by omega
  have h2 : 2 * n / 2 = n := by omega
  rw [if_pos h1, h2]

/-- Avro string encoding: length as a long, then the UTF-8 bytes. -/
def encodeStr (s : List Nat) : List Nat := encodeLen s.length ++ s

/-- Read exactly `n` bytes. -/
def readN (n : Nat) (bs : List Nat) : Option (List Nat × List Nat) :=
  if n ≤ bs.length then some (bs.take n, bs.drop n) else none

/-- Avro string decoding. -/
def decodeStr (bs : List Nat) : Option (List Nat × List Nat) :=
  match decodeLen bs with
  | some (n, r) => readN n r
  | none => none

theorem decodeStr_encodeStr (s : List Nat) (rest : List Nat) :
    decodeStr (encodeStr s ++ rest) = some (s, rest) := by
  unfold decodeStr encodeStr
  rw [List.append_assoc, decodeLen_encodeLen]
  dsimp only
  unfold readN
  rw [if_pos (by rw [List.length_append]; omega)]
  rw [List.take_left, List.drop_left]

/-- Avro float encoding: the 4 bytes of the 32-bit value, little endian. A
float value is modelled by its 32-bit pattern, the exact content of the
wire format (the schema's `float` is 32-bit IEEE). -/
def encodeFloat (w : Nat) : List Nat :=
  [w % 256, w / 256 % 256, w / 65536 % 256, w / 16777216 % 256]

/-- Avro float decoding. -/
def decodeFloat : List Nat → Option (Nat × List Nat)
  | b0 :: b1 :: b2 :: b3 :: rest =>
    some (b0 + 256 * b1 + 65536 * b2 + 16777216 * b3, rest)
  | _ => none

theorem decodeFloat_encodeFloat (w : Nat) (hw : w < 4294967296)
    (rest : List Nat) :
    decodeFloat (encodeFloat w ++ rest) = some (w, rest) := by
  unfold encodeFloat decodeFloat
  simp only [List.cons_append, List.nil_append]
  have heq : w % 256 + 256 * (w / 256 % 256) + 65536 * (w / 65536 % 256)
      + 16777216 * (w / 16777216 % 256) = w := by omega
  rw [heq]

/-- Avro array encoding as emitted by `toBuffer`: a single block (count,
then the items) followed by the zero terminator; the empty array is just
the terminator. -/
def encodeArray {α : Type} (enc : α → List Nat) (xs : List α) : List Nat :=
  if xs.isEmpty then [0]
  else encodeLen xs.length ++ (xs.map enc).flatten ++ [0]

/-- Decode exactly `n` consecutive items. -/
def decodeItems {α : Type} (dec : List Nat → Option (α × List Nat)) :
    Nat → List Nat → Option (List α × List Nat)
  | 0, bs => some ([], bs)
  | n + 1, bs =>
    match dec bs with
    | some (x, r) =>
      match decodeItems dec n r with
      | some (xs, r') => some (x :: xs, r')
      | none => none
    | none => none

/-- Avro array decoding (canonical single-block form, as produced by
`toBuffer`): read the count, the items, and the zero terminator; anything
else is rejected. -/
def decodeArray {α : Type} (dec : List Nat → Option (α × List Nat))
    (bs : List Nat) : Option (List α × List Nat) :=
  match decodeLen bs with
  | none => none
  | some (n, r) =>
    if n = 0 then some ([], r)
    else
      match decodeItems dec n r with
      | none => none
      | some (xs, r') =>
        match decodeLen r' with
        | some (m, r'') => if m = 0 then some (xs, r'') else none
        | none => none

theorem decodeItems_encode {α : Type} (dec : List Nat → Option (α × List Nat))
    (enc : α → List Nat) (xs : List α)
    (hrt : ∀ x ∈ xs, ∀ r, dec (enc x ++ r) = some (x, r)) : ∀ rest : List Nat,
    decodeItems dec xs.length ((xs.map enc).flatten ++ rest) = some (xs, rest) := by
  induction xs with
  | nil => intro rest; rfl
  | cons x xs ih =>
    intro rest
    have hx := hrt x (by simp) ((xs.map enc).flatten ++ rest)
    have hxs := ih (fun y hy r => hrt y (by simp [hy]) r) rest
    show decodeItems dec (xs.length + 1)
      ((enc x ++ (xs.map enc).flatten) ++ rest) = some (x :: xs, rest)
    rw [List.append_assoc]
    simp only [decodeItems, hx, hxs]

theorem decodeLen_zero (rest : List Nat) :
    decodeLen (0 :: rest) = some (0, rest) := by
  simp [decodeLen, varintDecode]

theorem decodeArray_encodeArray {α : Type}
    (dec : List Nat → Option (α × List Nat)) (enc : α → List Nat)
    (xs : List α)
    (hrt : ∀ x ∈ xs, ∀ r, dec (enc x ++ r) = some (x, r)) (rest : List Nat) :
    decodeArray dec (encodeArray enc xs ++ rest) = some (xs, rest) := by
  cases xs with
  | nil =>
    unfold encodeArray decodeArray
    simp only [List.isEmpty_nil, if_pos, List.cons_append, List.nil_append]
    rw [decodeLen_zero]
    dsimp only
    rw [if_pos rfl]
  | cons y ys =>
    unfold encodeArray decodeArray
    simp only [List.isEmpty_cons, Bool.false_eq_true, if_false]
    rw [List.append_assoc, List.append_assoc, decodeLen_encodeLen]
    dsimp only
    rw [if_neg (by simp)]
    rw [show ([0] : List Nat) ++ rest = 0 :: rest from rfl]
    rw [decodeItems_encode dec enc (y :: ys) hrt (0 :: rest)]
    dsimp only
    rw [decodeLen_zero]
    dsimp only
    rw [if_pos rfl]

/-- A chunk record of the archival schema (`ChunkAvroType`): five string
fields and a float array. Strings are modelled as their UTF-8 bytes and
floats by their 32-bit patterns, the exact wire contents. -/
structure AvroChunk where
  id : List Nat
  url : List Nat
  type : List Nat
  title : List Nat
  content : List Nat
  vector : List Nat
deriving DecidableEq

/-- `ContentData`: the archival record, a sequence of chunks
(`ContentAvroType`, record `ContentChunks`). -/
structure ContentData where
  chunks : List AvroChunk
deriving DecidableEq

/-- Avro binary encoding of one chunk: the fields in schema order. -/
def ChunkAvroType.toBuffer (c : AvroChunk) : List Nat :=
  encodeStr c.id ++ encodeStr c.url ++ encodeStr c.type ++ encodeStr c.title
    ++ encodeStr c.content ++ encodeArray encodeFloat c.vector

/-- Avro binary decoding of one chunk. -/
def ChunkAvroType.decode (bs : List Nat) : Option (AvroChunk × List Nat) :=
  match decodeStr bs with
  | none => none
  | some (i, bs1) =>
    match decodeStr bs1 with
    | none => none
    | some (u, bs2) =>
      match decodeStr bs2 with
      | none => none
      | some (t, bs3) =>
        match decodeStr bs3 with
        | none => none
        | some (ti, bs4) =>
          match decodeStr bs4 with
          | none => none
          | some (co, bs5) =>
            match decodeArray decodeFloat bs5 with
            | none => none
            | some (v, bs6) => some (⟨i, u, t, ti, co, v⟩, bs6)

/-- `ContentAvroType.toBuffer`: the archival record as Avro binary, an array
of chunk records. -/
def ContentAvroType.toBuffer (d : ContentData) : List Nat :=
  encodeArray ChunkAvroType.toBuffer d.chunks

/-- Decode the archival record, returning the remaining bytes. -/
def ContentAvroType.decode (bs : List Nat) : Option (ContentData × List Nat) :=
  match decodeArray ChunkAvroType.decode bs with
  | some (cs, r) => some (⟨cs⟩, r)
  | none => none

/-- `ContentAvroType.fromBuffer`: decode a whole buffer; trailing bytes or
any schema mismatch is a failure. -/
def ContentAvroType.fromBuffer (bs : List Nat) : Option ContentData :=
  match ContentAvroType.decode bs with
  | some (d, []) => some d
  | _ => none

/-- A valid UTF-8 byte string: every byte below 256. -/
def validStr (s : List Nat) : Bool := s.all (· < 256)

/-- A valid float: a 32-bit pattern. -/
def validFloat (w : Nat) : Bool := w < 4294967296

/-- A valid chunk record: valid strings and valid floats. -/
def validChunk (c : AvroChunk) : Bool :=
  validStr c.id && validStr c.url && validStr c.type && validStr c.title
    && validStr c.content && c.vector.all validFloat

/-- A valid archival record. -/
def validContent (d : ContentData) : Bool := d.chunks.all validChunk

theorem ChunkAvroType.decode_toBuffer (c : AvroChunk)
    (hc : validChunk c = true) (rest : List Nat) :
    ChunkAvroType.decode (ChunkAvroType.toBuffer c ++ rest) = some (c, rest) := by
  have hv : ∀ x ∈ c.vector, ∀ r,
      decodeFloat (encodeFloat x ++ r) = some (x, r) := by
    simp only [validChunk, Bool.and_eq_true, List.all_eq_true] at hc
    intro x hx r
    exact decodeFloat_encodeFloat x (by simpa [validFloat] using hc.2 x hx) r
  unfold ChunkAvroType.toBuffer ChunkAvroType.decode
  simp only [List.append_assoc, decodeStr_encodeStr]
  rw [decodeArray_encodeArray decodeFloat encodeFloat c.vector hv rest]

/-- C2: archival codec round-trip. For every valid `ContentData` value
(chunk records of byte strings and 32-bit float values), decoding the
encoded buffer yields the value back:
`ContentAvroType.fromBuffer (ContentAvroType.toBuffer x) = some x`. -/
theorem codec_round_trip (x : ContentData) (hx : validContent x = true) :
    ContentAvroType.fromBuffer (ContentAvroType.toBuffer x) = some x := by
  have hchunks : ∀ c ∈ x.chunks, ∀ r,
      ChunkAvroType.decode (ChunkAvroType.toBuffer c ++ r) = some (c, r) := by
    intro c hcmem r
    apply ChunkAvroType.decode_toBuffer
    simp only [validContent, List.all_eq_true] at hx
    exact hx c hcmem
  have harr := decodeArray_encodeArray ChunkAvroType.decode ChunkAvroType.toBuffer
    x.chunks hchunks []
  rw [List.append_nil] at harr
  unfold ContentAvroType.fromBuffer ContentAvroType.decode ContentAvroType.toBuffer
  rw [harr]

theorem codec_round_trip_witness :
    (validContent ⟨[⟨[104], [117], [116], [116, 105], [99], [1, 4000000000]⟩]⟩
      = true) ∧
    ContentAvroType.fromBuffer (ContentAvroType.toBuffer
        ⟨[⟨[104], [117], [116], [116, 105], [99], [1, 4000000000]⟩]⟩)
      = some ⟨[⟨[104], [117], [116], [116, 105], [99], [1, 4000000000]⟩]⟩ :=
  ⟨by decide,
    codec_round_trip ⟨[⟨[104], [117], [116], [116, 105], [99], [1, 4000000000]⟩]⟩
      (by decide)⟩
